import Mathlib

/-!
Verification of the taf file-tailing library (src/index.js): a shallow
embedding of its reverse line scanner `readLastLines` and of the
watch-session state machine (`Taf` constructor, `setWatcher`,
`processFileChange`, `close`), with theorems checking the written
specification against it.  Bytes are natural numbers, file contents and
emitted lines are byte lists (the code decodes a line to a UTF-8 string
when emitting it; every property under study is insensitive to that
decoding, so lines stay byte lists here).
-/

namespace Taf

/-- Abstract I/O error payload, standing for the Error objects produced by
node's fs primitives (`stat`, `open`, `read`). -/
structure Err where
  code : Nat
deriving DecidableEq, Repr

instance {α β : Type} [DecidableEq α] [DecidableEq β] : DecidableEq (Except α β) :=
  fun a b =>
    match a, b with
    | Except.error x, Except.error y =>
      if h : x = y then isTrue (by rw [h])
      else isFalse (by intro hc; cases hc; exact h rfl)
    | Except.error _, Except.ok _ => isFalse (by intro hc; cases hc)
    | Except.ok _, Except.error _ => isFalse (by intro hc; cases hc)
    | Except.ok x, Except.ok y =>
      if h : x = y then isTrue (by rw [h])
      else isFalse (by intro hc; cases hc; exact h rfl)

/-- Outcome of one `readLastLines` invocation: the value handed to the
callback, plus whether `fs.close` was applied to the file descriptor on
that path (the source closes it only on natural loop exit, never on a
read error). -/
structure ScanOutcome where
  result : Except Err (List (List Nat))
  closed : Bool
deriving DecidableEq, Repr

/-- Byte classification step of `readChar` (src/index.js lines 185-195).
A newline byte 10 either terminates the trailing content (first boundary,
counter 0, nothing emitted) or promotes the accumulator `cur` as one line
(`res.unshift(cur)` returns the new length, which is assigned to `ctr`);
any other byte is prepended to the accumulator.  Returns the updated
`(ctr, cur, res)`. -/
def processByte (b ctr : Nat) (cur : List Nat) (res : List (List Nat)) :
    Nat × List Nat × List (List Nat) :=
  if b = 10 then
    if ctr = 0 then (ctr + 1, [], res) else (res.length + 1, [], cur :: res)
  else (ctr, b :: cur, res)

/-- Recursive read loop of `readLastLines` (`readChar`, src/index.js lines
178-204).  The oracle `reads p` is the outcome of `fs.read` of one byte at
position p after the `--pos` decrement (`Except.error e` is a read error,
`ok none` is end-of-file which leaves the one-byte buffer untouched,
`ok (some b)` stores byte b into the buffer); `pos` is the position before
the decrement and `buf` the current buffer content.  The fuel argument
only bounds the recursion; the wrapper supplies exactly enough for the
loop to stop by its own `pos >= from && ctr < n` test.  On a read error
the callback fires immediately and the descriptor is not closed, exactly
as in the source. -/
def readLoop (reads : Int → Except Err (Option Nat)) (frm n : Nat) :
    Nat → Int → Nat → Nat → List Nat → List (List Nat) → ScanOutcome
  | 0, _, _, _, _, res => ⟨Except.ok res, true⟩
  | fuel + 1, pos, buf, ctr, cur, res =>
    match reads (pos - 1) with
    | Except.error e => ⟨Except.error e, false⟩
    | Except.ok ob =>
      let b := ob.getD buf
      let s := processByte b ctr cur res
      if pos - 1 ≥ (frm : Int) ∧ s.1 < n then
        readLoop reads frm n fuel (pos - 1) b s.1 s.2.1 s.2.2
      else ⟨Except.ok s.2.2, true⟩

/-- Model of `readLastLines(path, from, pos, n, cb)` (src/index.js lines
166-208): open the file (`openR` the outcome of `fs.open`), then run the
loop from position `to` with fuel `to - frm + 1`, the exact number of
reads the loop performs when the line cap does not stop it earlier.  The
argument `g` is the content of the freshly allocated one-byte buffer
before any read fills it. -/
def readLastLinesO (openR : Except Err Unit) (reads : Int → Except Err (Option Nat))
    (g frm toPos n : Nat) : ScanOutcome :=
  match openR with
  | Except.error e => ⟨Except.error e, false⟩
  | Except.ok _ => readLoop reads frm n (toPos - frm + 1) (toPos : Int) g 0 [] []

/-- Read oracle of a static file holding exactly these bytes: a positioned
read returns the byte at that offset (`none` at or beyond end-of-file).
The read at position -1, which the loop issues only once and only when
`from = 0`, is served by node at the descriptor's current position; that
position is still 0 because every earlier read was positioned, so the
first byte of the file (none when the file is empty) is delivered
again. -/
def fileReads (file : List Nat) : Int → Except Err (Option Nat) :=
  fun p => if p < 0 then Except.ok (file.get? 0) else Except.ok (file.get? p.toNat)

/-- Pure scan of a static file: the line list handed to the callback when
no I/O error occurs (with `fileReads` none can occur). -/
def readLastLines (g : Nat) (file : List Nat) (frm toPos n : Nat) : List (List Nat) :=
  match (readLastLinesO (Except.ok ()) (fileReads file) g frm toPos n).result with
  | Except.ok r => r
  | Except.error _ => []

/-- State of one watch session, the fields the constructor stores on a
`Taf` instance that the claims touch: the monitored path, the line count
`this.count`, the scanned-offset cursor `this._size` (the spec's
`lastOffset`), and whether the underlying `fs.FSWatcher` subscription is
still open (`close` closes it and nothing reopens it). -/
structure TafState where
  path : String
  count : Nat
  size : Nat
  watcherActive : Bool
deriving DecidableEq, Repr

/-- Events a session emits to its subscribers. -/
inductive Ev where
  | line (bytes : List Nat)
  | error (e : Err)
deriving DecidableEq, Repr

/-- Notifications delivered by the `fs.watch` callback installed in
`setWatcher`: a change event together with the outcome of the `fs.stat`
size probe it triggers, or a rename event carrying the new filename when
the platform reports one. -/
inductive Notification where
  | change (statR : Except Err Nat)
  | rename (filename : Option String)

/-- Callback of `processFileChange` (src/index.js lines 138-147), applied
to the session state as it is when `readLastLines` completes: an error is
re-emitted as one error event and the state is untouched; on success
`this._size` is set to the probed size and one line event fires per
returned line, in order.  The code consults no closed flag here. -/
def scanCallback (st : TafState) (newSize : Nat)
    (r : Except Err (List (List Nat))) : TafState × List Ev :=
  match r with
  | Except.error e => (st, [Ev.error e])
  | Except.ok lines => ({ st with size := newSize }, lines.map Ev.line)

/-- Model of `processFileChange(newSize)` (src/index.js lines 135-148)
over an arbitrary read oracle, so that open and read failures can be
injected: scan `[this._size, newSize)` capped at `this.count` lines and
feed the outcome to the callback. -/
def processFileChangeO (openR : Except Err Unit)
    (reads : Int → Except Err (Option Nat)) (g : Nat) (st : TafState)
    (newSize : Nat) : TafState × List Ev :=
  scanCallback st newSize
    (readLastLinesO openR reads g st.size newSize st.count).result

/-- Model of `processFileChange(newSize)` reading the static per-path file
contents `fsc`: the path is dereferenced at dispatch time, exactly as
`readLastLines(self.path, ...)` does. -/
def processFileChange (fsc : String → List Nat) (st : TafState)
    (newSize : Nat) : TafState × List Ev :=
  processFileChangeO (Except.ok ()) (fileReads (fsc st.path)) 0 st newSize

/-- Handler for a change notification (src/index.js lines 115-123): a
failed stat emits one error event; a probed size strictly above
`this._size` dispatches `processFileChange`; any other size does
nothing. -/
def onChange (statR : Except Err Nat) (fsc : String → List Nat)
    (st : TafState) : TafState × List Ev :=
  match statR with
  | Except.error e => (st, [Ev.error e])
  | Except.ok sz =>
    if st.size < sz then processFileChange fsc st sz else (st, [])

/-- Directory part of a POSIX path, modeled from node's `path.dirname`
(an external collaborator, spec section 6) for plain slash-separated
paths: everything before the last slash, "." when there is no slash, "/"
for a file directly under the root. -/
def dirname (p : String) : String :=
  match (p.toList.reverse.dropWhile (fun c => c ≠ '/')) with
  | [] => "."
  | _ :: [] => "/"
  | _ :: tl => String.mk tl.reverse

/-- Resolution of a reported filename against a directory, modeled from
node's `path.resolve` (external collaborator, spec section 6) for
filenames that are either absolute or plain relative names without
navigation segments: an absolute filename wins, otherwise it is joined
under the directory. -/
def resolve (dir f : String) : String :=
  match f.toList with
  | '/' :: _ => f
  | _ =>
    match dir.toList.reverse with
    | '/' :: _ => dir ++ f
    | _ => dir ++ "/" ++ f

/-- Handler for a rename notification (src/index.js lines 125-126): when
a filename is reported, the monitored path becomes that name resolved in
the directory of the old path; `this.watcher` and `this._size` are not
touched and nothing is emitted.  Without a filename nothing happens. -/
def onRename (filename : Option String) (st : TafState) : TafState × List Ev :=
  match filename with
  | some f => ({ st with path := resolve (dirname st.path) f }, [])
  | none => (st, [])

/-- Delivery of one `fs.watch` notification to the session.  A closed
`fs.FSWatcher` invokes its callback no further (collaborator contract,
spec section 6), hence the gate on `watcherActive`; an active watcher
dispatches exactly as the callback installed by `setWatcher`
(src/index.js lines 110-128) does. -/
def notify (fsc : String → List Nat) (st : TafState) (nt : Notification) :
    TafState × List Ev :=
  if st.watcherActive then
    match nt with
    | Notification.change statR => onChange statR fsc st
    | Notification.rename fn => onRename fn st
  else (st, [])

/-- Model of `close()` (src/index.js lines 153-155): it only destroys the
underlying watcher; path and scanned offset are left as they are, and no
flag on the session itself records closedness. -/
def close (st : TafState) : TafState :=
  { st with watcherActive := false }

/-- Model of the `Taf` constructor tail (src/index.js lines 77-87) given
the outcome of the initial `fs.stat`: starting from `_size = 0`, a failed
stat emits one error event and the watcher is never armed; otherwise
`_processFileChange(stats.size)` scans `[0, size)` capped at `count`
lines and then `_setWatcher()` arms the watcher. -/
def construct (statR : Except Err Nat) (fsc : String → List Nat)
    (p : String) (n : Nat) : TafState × List Ev :=
  match statR with
  | Except.error e => (⟨p, n, 0, false⟩, [Ev.error e])
  | Except.ok sz =>
    let r := processFileChange fsc ⟨p, n, 0, false⟩ sz
    ({ r.1 with watcherActive := true }, r.2)

/-- List-level replay of the read loop: the bytes the loop reads, in the
order it reads them (file order reversed), processed by the same
`processByte` step and stopped by the same `ctr < n` test; the range test
of the loop corresponds to the list running out.  The bridge theorems
below prove the loop equal to this replay over a static file. -/
def scanBytes (n : Nat) : List Nat → Nat → List Nat → List (List Nat) → List (List Nat)
  | [], _, _, res => res
  | b :: rest, ctr, cur, res =>
    let s := processByte b ctr cur res
    if s.1 < n then scanBytes n rest s.1 s.2.1 s.2.2 else s.2.2

/-- Last `n` elements of a list, in order. -/
def lastN (n : Nat) (l : List α) : List α := l.drop (l.length - n)

/-- Byte encoding of a list of newline-terminated lines. -/
def encodeLines (ms : List (List Nat)) : List Nat :=
  (ms.map (fun m => m ++ [10])).flatten

/-- Reversed encoding of newline-terminated lines, one reversed block
`10 :: m.reverse` per line, in the order a backward scan meets them. -/
def blocksOf (rs : List (List Nat)) : List Nat :=
  (rs.map (fun m => 10 :: m.reverse)).flatten

theorem blocksOf_append (a b : List (List Nat)) :
    blocksOf (a ++ b) = blocksOf a ++ blocksOf b := by
  simp [blocksOf]

theorem encodeLines_reverse (ms : List (List Nat)) :
    (encodeLines ms).reverse = blocksOf ms.reverse := by
  induction ms with
  | nil => rfl
  | cons m ms ih =>
    have h1 : encodeLines (m :: ms) = (m ++ [10]) ++ encodeLines ms := by
      simp [encodeLines]
    rw [h1, List.reverse_append, ih,
      show (m :: ms).reverse = ms.reverse ++ [m] by simp, blocksOf_append]
    simp [blocksOf]

theorem processByte_nl_pos (ctr : Nat) (cur : List Nat) (res : List (List Nat))
    (h : ctr ≠ 0) : processByte 10 ctr cur res = (res.length + 1, [], cur :: res) := by
  simp [processByte, h]

theorem processByte_nl_zero (cur : List Nat) (res : List (List Nat)) :
    processByte 10 0 cur res = (1, [], res) := by
  simp [processByte]

theorem processByte_other (b ctr : Nat) (cur : List Nat) (res : List (List Nat))
    (h : b ≠ 10) : processByte b ctr cur res = (ctr, b :: cur, res) := by
  simp [processByte, h]

theorem scanBytes_cons (n b : Nat) (rest : List Nat) (ctr : Nat) (cur : List Nat)
    (res : List (List Nat)) :
    scanBytes n (b :: rest) ctr cur res =
      if (processByte b ctr cur res).1 < n then
        scanBytes n rest (processByte b ctr cur res).1
          (processByte b ctr cur res).2.1 (processByte b ctr cur res).2.2
      else (processByte b ctr cur res).2.2 := rfl

theorem scanBytes_accum (n : Nat) (s : List Nat) :
    ∀ (rest : List Nat) (ctr : Nat) (cur : List Nat) (res : List (List Nat)),
    10 ∉ s → ctr < n →
    scanBytes n (s ++ rest) ctr cur res =
      scanBytes n rest ctr (s.reverse ++ cur) res := by
  induction s with
  | nil => intro rest ctr cur res _ _; simp
  | cons b s ih =>
    intro rest ctr cur res hs hctr
    have hb : b ≠ 10 := by intro h; exact hs (by simp [h])
    rw [List.cons_append, scanBytes_cons, processByte_other b ctr cur res hb]
    simp only [if_pos hctr]
    rw [ih rest ctr (b :: cur) res (fun h => hs (List.mem_cons_of_mem b h)) hctr]
    simp

theorem scanBytes_ctrZero_cur (n : Nat) (l : List Nat) :
    ∀ (cur cur' : List Nat) (res : List (List Nat)),
    scanBytes n l 0 cur res = scanBytes n l 0 cur' res := by
  induction l with
  | nil => intro _ _ _; rfl
  | cons b rest ih =>
    intro cur cur' res
    by_cases hb : b = 10
    · subst hb
      rw [scanBytes_cons, scanBytes_cons, processByte_nl_zero cur res,
        processByte_nl_zero cur' res]
    · rw [scanBytes_cons, scanBytes_cons, processByte_other b 0 cur res hb,
        processByte_other b 0 cur' res hb]
      by_cases h0 : 0 < n
      · simp only [if_pos h0]
        exact ih (b :: cur) (b :: cur') res
      · simp only [if_neg h0]

theorem scanBytes_block (n : Nat) (m rest : List Nat) (ctr : Nat)
    (cur : List Nat) (res : List (List Nat)) (hm : 10 ∉ m) (hctr : ctr ≠ 0) :
    scanBytes n ((10 :: m.reverse) ++ rest) ctr cur res =
      if res.length + 1 < n then scanBytes n rest (res.length + 1) m (cur :: res)
      else cur :: res := by
  rw [List.cons_append, scanBytes_cons, processByte_nl_pos ctr cur res hctr]
  by_cases h : res.length + 1 < n
  · simp only [if_pos h]
    rw [scanBytes_accum n m.reverse rest (res.length + 1) [] (cur :: res)
        (by simpa using hm) h]
    simp
  · simp only [if_neg h]

theorem scanBytes_blocks (n : Nat) (rs : List (List Nat)) :
    ∀ (rest : List Nat) (cur : List Nat) (res : List (List Nat)),
    (∀ m ∈ rs, 10 ∉ m) → res.length + rs.length < n →
    scanBytes n (blocksOf rs ++ rest) (max 1 res.length) cur res =
      scanBytes n rest (max 1 (res.length + rs.length)) (rs.getLastD cur)
        ((cur :: rs).dropLast.reverse ++ res) := by
  induction rs with
  | nil => intro rest cur res _ _; simp [blocksOf]
  | cons m rs ih =>
    intro rest cur res h10 hlen
    have hm : 10 ∉ m := h10 m (List.mem_cons_self m rs)
    have hlen' : res.length + rs.length + 1 < n := by
      simp only [List.length_cons] at hlen; omega
    have hb : blocksOf (m :: rs) ++ rest = (10 :: m.reverse) ++ (blocksOf rs ++ rest) := by
      simp [blocksOf]
    rw [hb, scanBytes_block n m (blocksOf rs ++ rest) (max 1 res.length) cur res hm
        (by have := Nat.le_max_left 1 res.length; omega),
      if_pos (by omega)]
    have hmax : res.length + 1 = max 1 (cur :: res).length := by
      rw [List.length_cons]; exact (Nat.max_eq_right (by omega)).symm
    rw [hmax, ih rest m (cur :: res) (fun x hx => h10 x (List.mem_cons_of_mem m hx))
      (by rw [List.length_cons]; omega)]
    have hc1 : (cur :: res).length + rs.length = res.length + (m :: rs).length := by
      simp only [List.length_cons]; omega
    have hc2 : (m :: rs).getLastD cur = rs.getLastD m := by
      cases rs <;> simp [List.getLastD]
    have hc3 : (cur :: m :: rs).dropLast.reverse ++ res =
        (m :: rs).dropLast.reverse ++ (cur :: res) := by
      rw [show (cur :: m :: rs).dropLast = cur :: (m :: rs).dropLast from rfl]
      simp [List.reverse_cons]
    rw [hc1, hc2, hc3]

theorem lastN_append_of_length (n : Nat) (l₁ l₂ : List α) (h : l₂.length = n) :
    lastN n (l₁ ++ l₂) = l₂ := by
  unfold lastN
  rw [List.length_append, show l₁.length + l₂.length - n = l₁.length by omega,
    List.drop_left]

theorem lastN_cons (n : Nat) (x : α) (l : List α) (h : n ≤ l.length) :
    lastN n (x :: l) = lastN n l := by
  unfold lastN
  rw [List.length_cons, show l.length + 1 - n = (l.length - n) + 1 by omega,
    List.drop_succ_cons]

theorem reverse_eq_getLast_cons (l : List α) (h : l ≠ []) :
    l.reverse = l.getLast h :: l.dropLast.reverse := by
  conv_lhs => rw [← List.dropLast_append_getLast h]
  rw [List.reverse_append]
  simp

theorem scanBytes_blocks_cap (n : Nat) (rs : List (List Nat)) :
    ∀ (rest : List Nat) (cur : List Nat) (res : List (List Nat)),
    (∀ m ∈ rs, 10 ∉ m) → n ≤ res.length + rs.length → res.length < n →
    scanBytes n (blocksOf rs ++ rest) (max 1 res.length) cur res =
      lastN n (rs.dropLast.reverse ++ cur :: res) := by
  induction rs with
  | nil =>
    intro rest cur res _ hn hres
    exact absurd hn (by simp only [List.length_nil]; omega)
  | cons m rs ih =>
    intro rest cur res h10 hn hres
    have hm : 10 ∉ m := h10 m (List.mem_cons_self m rs)
    have hb : blocksOf (m :: rs) ++ rest = (10 :: m.reverse) ++ (blocksOf rs ++ rest) := by
      simp [blocksOf]
    rw [hb, scanBytes_block n m (blocksOf rs ++ rest) (max 1 res.length) cur res hm
        (by have := Nat.le_max_left 1 res.length; omega)]
    by_cases h : res.length + 1 < n
    · have hrs : rs ≠ [] := by
        intro hnil
        rw [hnil] at hn
        simp only [List.length_cons, List.length_nil] at hn
        omega
      have hmax : res.length + 1 = max 1 (cur :: res).length := by
        rw [List.length_cons]; exact (Nat.max_eq_right (by omega)).symm
      rw [if_pos h, hmax,
        ih rest m (cur :: res) (fun x hx => h10 x (List.mem_cons_of_mem m hx))
          (by rw [List.length_cons]; rw [List.length_cons] at hn; omega)
          (by rw [List.length_cons]; omega)]
      obtain ⟨c, tl, rfl⟩ := List.exists_cons_of_ne_nil hrs
      rw [show (m :: c :: tl).dropLast = m :: (c :: tl).dropLast from rfl]
      simp [List.reverse_cons]
    · rw [if_neg h]
      rw [lastN_append_of_length n ((m :: rs).dropLast.reverse) (cur :: res)
        (by rw [List.length_cons]; omega)]
theorem scanBytes_nil (n ctr : Nat) (cur : List Nat) (res : List (List Nat)) :
    scanBytes n [] ctr cur res = res := rfl

theorem readLoop_succ (reads : Int → Except Err (Option Nat)) (frm n fuel : Nat)
    (pos : Int) (buf ctr : Nat) (cur : List Nat) (res : List (List Nat)) :
    readLoop reads frm n (fuel + 1) pos buf ctr cur res =
      match reads (pos - 1) with
      | Except.error e => ⟨Except.error e, false⟩
      | Except.ok ob =>
        let b := ob.getD buf
        let s := processByte b ctr cur res
        if pos - 1 ≥ (frm : Int) ∧ s.1 < n then
          readLoop reads frm n fuel (pos - 1) b s.1 s.2.1 s.2.2
        else ⟨Except.ok s.2.2, true⟩ := rfl

theorem fileReads_at (file : List Nat) (k : Nat) :
    fileReads file (k : Int) = Except.ok (file.get? k) := by
  unfold fileReads
  rw [if_neg (by omega)]
  norm_num

theorem fileReads_neg (file : List Nat) (p : Int) (hp : p < 0) :
    fileReads file p = Except.ok (file.get? 0) := by
  unfold fileReads
  rw [if_pos hp]

theorem take_reverse_succ (l : List α) (k : Nat) (a : α) (h : l.get? k = some a) :
    (l.take (k + 1)).reverse = a :: (l.take k).reverse := by
  rw [List.take_succ, ← List.get?_eq_getElem?, h, List.reverse_append]
  simp

/-- Bridge for a scan with a positive lower bound: over a static file the
loop started at position `frm + d` with fuel `d + 1` reads the bytes at
positions `frm + d - 1` down to `frm - 1` (one below the requested range)
in backward order, which is the reversal of the slice starting at
`frm - 1` of length `d + 1`, and never errors, closing the descriptor. -/
theorem readLoop_eq_scanBytes (file : List Nat) (frm n : Nat) (hfrm : 1 ≤ frm) :
    ∀ (d : Nat), frm + d ≤ file.length →
    ∀ (buf ctr : Nat) (cur : List Nat) (res : List (List Nat)),
    readLoop (fileReads file) frm n (d + 1) ((frm + d : Nat) : Int) buf ctr cur res =
      ⟨Except.ok (scanBytes n (((file.drop (frm - 1)).take (d + 1)).reverse) ctr cur res),
       true⟩ := by
  intro d
  induction d with
  | zero =>
    intro hle buf ctr cur res
    rw [readLoop_succ]
    have hpos : ((frm + 0 : Nat) : Int) - 1 = ((frm - 1 : Nat) : Int) := by omega
    have hlt : frm - 1 < file.length := by omega
    rw [hpos, fileReads_at, List.get?_eq_get hlt]
    dsimp only [Option.getD_some]
    rw [if_neg (by rintro ⟨h1, -⟩; omega)]
    have hq : (file.drop (frm - 1)).get? 0 = some (file.get ⟨frm - 1, hlt⟩) := by
      rw [List.get?_drop, show frm - 1 + 0 = frm - 1 by omega, List.get?_eq_get hlt]
    rw [take_reverse_succ (file.drop (frm - 1)) 0 (file.get ⟨frm - 1, hlt⟩) hq]
    rw [scanBytes_cons]
    rw [show (file.drop (frm - 1)).take 0 = [] from rfl, List.reverse_nil,
      scanBytes_nil, ite_self]
  | succ d ih =>
    intro hle buf ctr cur res
    rw [readLoop_succ]
    have hpos : ((frm + (d + 1) : Nat) : Int) - 1 = ((frm + d : Nat) : Int) := by omega
    have hlt : frm + d < file.length := by omega
    rw [hpos, fileReads_at, List.get?_eq_get hlt]
    dsimp only [Option.getD_some]
    have hq : (file.drop (frm - 1)).get? (d + 1) = some (file.get ⟨frm + d, hlt⟩) := by
      rw [List.get?_drop, show frm - 1 + (d + 1) = frm + d by omega, List.get?_eq_get hlt]
    rw [take_reverse_succ (file.drop (frm - 1)) (d + 1) (file.get ⟨frm + d, hlt⟩) hq,
      scanBytes_cons]
    by_cases hc : (processByte (file.get ⟨frm + d, hlt⟩) ctr cur res).1 < n
    · rw [if_pos ⟨by omega, hc⟩, if_pos hc, ih (by omega) _ _ _ _]
    · rw [if_neg (by rintro ⟨-, h2⟩; exact hc h2), if_neg hc]

/-- Bridge for a scan with lower bound zero: the loop reads positions
`d - 1` down to 0 and then issues one read at position -1, which node
serves at the descriptor's current position 0, so the first byte of the
file is processed a second time at the very end of the scan. -/
theorem readLoopZero_eq_scanBytes (file : List Nat) (n b0 : Nat)
    (hb0 : file.get? 0 = some b0) :
    ∀ (d : Nat), d ≤ file.length →
    ∀ (buf ctr : Nat) (cur : List Nat) (res : List (List Nat)),
    readLoop (fileReads file) 0 n (d + 1) ((d : Nat) : Int) buf ctr cur res =
      ⟨Except.ok (scanBytes n ((file.take d).reverse ++ [b0]) ctr cur res), true⟩ := by
  intro d
  induction d with
  | zero =>
    intro hle buf ctr cur res
    rw [readLoop_succ, fileReads_neg file (((0 : Nat) : Int) - 1) (by omega), hb0]
    dsimp only [Option.getD_some]
    rw [if_neg (by rintro ⟨h1, -⟩; omega)]
    rw [show (file.take 0).reverse ++ [b0] = [b0] from rfl, scanBytes_cons,
      scanBytes_nil, ite_self]
  | succ d ih =>
    intro hle buf ctr cur res
    rw [readLoop_succ]
    have hpos : (((d + 1 : Nat)) : Int) - 1 = ((d : Nat) : Int) := by omega
    have hlt : d < file.length := by omega
    rw [hpos, fileReads_at, List.get?_eq_get hlt]
    dsimp only [Option.getD_some]
    rw [show ((file.take (d + 1)).reverse ++ [b0] : List Nat) =
        file.get ⟨d, hlt⟩ :: ((file.take d).reverse ++ [b0]) by
      rw [take_reverse_succ file d (file.get ⟨d, hlt⟩) (List.get?_eq_get hlt),
        List.cons_append]]
    rw [scanBytes_cons]
    by_cases hc : (processByte (file.get ⟨d, hlt⟩) ctr cur res).1 < n
    · rw [if_pos ⟨by omega, hc⟩, if_pos hc, ih (by omega) _ _ _ _]
    · rw [if_neg (by rintro ⟨-, h2⟩; exact hc h2), if_neg hc]

/-- Scan outcome over a static file, positive lower bound: no error, the
descriptor is closed, and the lines are the replay of the reversed window
that starts one byte below the requested range. -/
theorem readLastLinesO_pos (g : Nat) (file : List Nat) (frm toPos n : Nat)
    (h1 : 1 ≤ frm) (h2 : frm ≤ toPos) (h3 : toPos ≤ file.length) :
    readLastLinesO (Except.ok ()) (fileReads file) g frm toPos n =
      ⟨Except.ok
        (scanBytes n (((file.drop (frm - 1)).take (toPos - frm + 1)).reverse) 0 [] []),
        true⟩ := by
  have h := readLoop_eq_scanBytes file frm n h1 (toPos - frm) (by omega) g 0 [] []
  rw [show ((frm + (toPos - frm) : Nat) : Int) = ((toPos : Nat) : Int) by omega] at h
  have hfuel : toPos - frm + 1 = (toPos - frm) + 1 := rfl
  exact h

/-- Scan outcome over a static nonempty file, lower bound zero. -/
theorem readLastLinesO_zero (g : Nat) (file : List Nat) (toPos n b0 : Nat)
    (hb0 : file.get? 0 = some b0) (h3 : toPos ≤ file.length) :
    readLastLinesO (Except.ok ()) (fileReads file) g 0 toPos n =
      ⟨Except.ok (scanBytes n ((file.take toPos).reverse ++ [b0]) 0 [] []), true⟩ :=
  readLoopZero_eq_scanBytes file n b0 hb0 toPos h3 g 0 [] []

theorem readLastLines_pos (g : Nat) (file : List Nat) (frm toPos n : Nat)
    (h1 : 1 ≤ frm) (h2 : frm ≤ toPos) (h3 : toPos ≤ file.length) :
    readLastLines g file frm toPos n =
      scanBytes n (((file.drop (frm - 1)).take (toPos - frm + 1)).reverse) 0 [] [] := by
  unfold readLastLines
  rw [readLastLinesO_pos g file frm toPos n h1 h2 h3]

theorem readLastLines_zero (g : Nat) (file : List Nat) (toPos n b0 : Nat)
    (hb0 : file.get? 0 = some b0) (h3 : toPos ≤ file.length) :
    readLastLines g file 0 toPos n =
      scanBytes n ((file.take toPos).reverse ++ [b0]) 0 [] [] := by
  unfold readLastLines
  rw [readLastLinesO_zero g file toPos n b0 hb0 h3]

theorem getLastD_eq_getLast (a : α) (l : List α) :
    l.getLastD a = (a :: l).getLast (List.cons_ne_nil a l) := by
  induction l generalizing a with
  | nil => rfl
  | cons b t ih =>
    rw [List.getLastD_cons, ih b]
    rfl

/-- Backward replay of a window made of one closing newline byte from the
already scanned region followed by the blocks of `rs.reverse`: with
`2 ≤ n` and at most `n` lines every line is collected, in file order. -/
theorem scanBytes_growth (n : Nat) (rs : List (List Nat)) (hrs : rs ≠ [])
    (h10 : ∀ m ∈ rs, 10 ∉ m) (hk : rs.length ≤ n) (hn : 2 ≤ n) :
    scanBytes n (blocksOf rs ++ [10]) 0 [] [] = rs.reverse := by
  obtain ⟨m0, rs', rfl⟩ := List.exists_cons_of_ne_nil hrs
  have hm0 : 10 ∉ m0 := h10 m0 (List.mem_cons_self m0 rs')
  rw [show blocksOf (m0 :: rs') ++ [10] =
      10 :: (m0.reverse ++ (blocksOf rs' ++ [10])) by simp [blocksOf],
    scanBytes_cons, processByte_nl_zero]
  dsimp only
  rw [if_pos (by omega),
    scanBytes_accum n m0.reverse (blocksOf rs' ++ [10]) 1 [] []
      (by simpa using hm0) (by omega),
    show m0.reverse.reverse ++ ([] : List Nat) = m0 by simp,
    show (1 : Nat) = max 1 ([] : List (List Nat)).length from rfl,
    scanBytes_blocks n rs' [10] m0 []
      (fun x hx => h10 x (List.mem_cons_of_mem m0 hx))
      (by simp only [List.length_nil, List.length_cons] at hk ⊢; omega),
    scanBytes_cons,
    processByte_nl_pos _ _ _ (by have := Nat.le_max_left 1 (([] : List (List Nat)).length + rs'.length); omega)]
  dsimp only
  rw [scanBytes_nil, ite_self]
  rw [getLastD_eq_getLast m0 rs',
    show ((m0 :: rs').dropLast.reverse ++ ([] : List (List Nat))) =
      (m0 :: rs').dropLast.reverse by simp,
    ← reverse_eq_getLast_cons (m0 :: rs') (List.cons_ne_nil m0 rs')]

/-- Backward replay of a window made of one arbitrary byte from below the
range followed by the blocks of `rs.reverse`, when `rs` holds more than
`n` lines and `2 ≤ n`: exactly the `n` most recent lines are collected
and the scan never reaches the byte below the blocks. -/
theorem scanBytes_overflow (n : Nat) (rs : List (List Nat)) (c : Nat)
    (h10 : ∀ m ∈ rs, 10 ∉ m) (hk : n < rs.length) (hn : 2 ≤ n) :
    scanBytes n (blocksOf rs ++ [c]) 0 [] [] = lastN n rs.reverse := by
  obtain ⟨m0, rs', rfl⟩ := List.exists_cons_of_ne_nil
    (by
      intro h
      rw [h] at hk
      simp only [List.length_nil] at hk
      omega : (rs : List (List Nat)) ≠ [])
  have hm0 : 10 ∉ m0 := h10 m0 (List.mem_cons_self m0 rs')
  have hrs' : rs' ≠ [] := by
    intro h
    rw [h] at hk
    simp only [List.length_cons, List.length_nil] at hk
    omega
  have hk' : n ≤ rs'.length := by
    simp only [List.length_cons] at hk
    omega
  rw [show blocksOf (m0 :: rs') ++ [c] =
      10 :: (m0.reverse ++ (blocksOf rs' ++ [c])) by simp [blocksOf],
    scanBytes_cons, processByte_nl_zero]
  dsimp only
  rw [if_pos (by omega),
    scanBytes_accum n m0.reverse (blocksOf rs' ++ [c]) 1 [] []
      (by simpa using hm0) (by omega),
    show m0.reverse.reverse ++ ([] : List Nat) = m0 by simp,
    show (1 : Nat) = max 1 ([] : List (List Nat)).length from rfl,
    scanBytes_blocks_cap n rs' [c] m0 []
      (fun x hx => h10 x (List.mem_cons_of_mem m0 hx))
      (by simp only [List.length_nil]; omega)
      (by simp only [List.length_nil]; omega)]
  rw [show (m0 :: rs').reverse = rs'.reverse ++ [m0] by simp,
    reverse_eq_getLast_cons rs' hrs', List.cons_append,
    lastN_cons n _ _ (by
      rw [List.length_append, List.length_reverse, List.length_dropLast]
      simp only [List.length_cons, List.length_nil]
      omega)]

theorem processByte_out_le (b ctr : Nat) (cur : List Nat) (res : List (List Nat))
    (n : Nat) (hinv : (res.length ≤ ctr ∧ ctr < n) ∨ (ctr = 0 ∧ res = [])) :
    (processByte b ctr cur res).2.2.length ≤ n := by
  unfold processByte
  rcases hinv with ⟨h1, h2⟩ | ⟨h1, h2⟩
  · split
    · split
      · simpa using by omega
      · simp only [List.length_cons]; omega
    · simpa using by omega
  · subst h1; subst h2
    split
    · split
      · simp
      · simp_all
    · simp

theorem processByte_len (b ctr : Nat) (cur : List Nat) (res : List (List Nat))
    (hinv : res.length ≤ ctr ∨ (ctr = 0 ∧ res = [])) :
    (processByte b ctr cur res).2.2.length ≤ (processByte b ctr cur res).1 := by
  unfold processByte
  rcases hinv with h1 | ⟨h1, h2⟩
  · split
    · split
      · simpa using by omega
      · simp
    · simpa using h1
  · subst h1; subst h2
    split
    · split
      · simp
      · simp_all
    · simp

/-- Result-size invariant of the read loop: starting from a state where
the collected lines fit the counter (or the fresh zero state), a
successful outcome never holds more than `n` lines, whatever the oracle
feeds it. -/
theorem readLoop_length_le (reads : Int → Except Err (Option Nat)) (frm n : Nat) :
    ∀ (fuel : Nat) (pos : Int) (buf ctr : Nat) (cur : List Nat)
      (res r : List (List Nat)),
    ((res.length ≤ ctr ∧ ctr < n) ∨ (ctr = 0 ∧ res = [])) →
    (readLoop reads frm n fuel pos buf ctr cur res).result = Except.ok r →
    r.length ≤ n := by
  intro fuel
  induction fuel with
  | zero =>
    intro pos buf ctr cur res r hinv h
    have hr : res = r := by
      simpa [readLoop] using h
    subst hr
    rcases hinv with ⟨h1, h2⟩ | ⟨h1, h2⟩
    · omega
    · simp [h2]
  | succ fuel ih =>
    intro pos buf ctr cur res r hinv h
    rw [readLoop_succ] at h
    cases hcase : reads (pos - 1) with
    | error e =>
      rw [hcase] at h
      simp at h
    | ok ob =>
      rw [hcase] at h
      dsimp only at h
      by_cases hc : pos - 1 ≥ (frm : Int) ∧ (processByte (ob.getD buf) ctr cur res).1 < n
      · rw [if_pos hc] at h
        refine ih (pos - 1) (ob.getD buf) _ _ _ r (Or.inl ⟨?_, hc.2⟩) h
        exact processByte_len _ _ _ _ (by tauto)
      · rw [if_neg hc] at h
        have hr : (processByte (ob.getD buf) ctr cur res).2.2 = r := by
          simpa using h
        subst hr
        exact processByte_out_le _ _ _ _ _ hinv

/-- Successful scans deliver at most `n` lines, whatever the open and read
outcomes were. -/
theorem readLastLinesO_length_le (openR : Except Err Unit)
    (reads : Int → Except Err (Option Nat)) (g frm toPos n : Nat)
    (r : List (List Nat))
    (h : (readLastLinesO openR reads g frm toPos n).result = Except.ok r) :
    r.length ≤ n := by
  cases openR with
  | error e => simp [readLastLinesO] at h
  | ok u =>
    exact readLoop_length_le reads frm n (toPos - frm + 1) (toPos : Int) g 0 [] [] r
      (Or.inr ⟨rfl, rfl⟩) h

/-- Read loops over a static file never fail and always close the file
descriptor. -/
theorem readLoop_fileReads_ok (file : List Nat) (frm n : Nat) :
    ∀ (fuel : Nat) (pos : Int) (buf ctr : Nat) (cur : List Nat)
      (res : List (List Nat)),
    ∃ r, readLoop (fileReads file) frm n fuel pos buf ctr cur res =
      ⟨Except.ok r, true⟩ := by
  intro fuel
  induction fuel with
  | zero => intro pos buf ctr cur res; exact ⟨res, rfl⟩
  | succ fuel ih =>
    intro pos buf ctr cur res
    rw [readLoop_succ]
    cases hcase : fileReads file (pos - 1) with
    | error e =>
      exfalso
      unfold fileReads at hcase
      split at hcase <;> cases hcase
    | ok ob =>
      dsimp only
      by_cases hc : pos - 1 ≥ (frm : Int) ∧ (processByte (ob.getD buf) ctr cur res).1 < n
      · rw [if_pos hc]
        exact ih _ _ _ _ _
      · rw [if_neg hc]
        exact ⟨_, rfl⟩

/-- Pure scans over a static file are exactly the successful outcome. -/
theorem readLastLinesO_fileReads (g : Nat) (file : List Nat) (frm toPos n : Nat) :
    readLastLinesO (Except.ok ()) (fileReads file) g frm toPos n =
      ⟨Except.ok (readLastLines g file frm toPos n), true⟩ := by
  obtain ⟨r, hr⟩ := readLoop_fileReads_ok file frm n (toPos - frm + 1) (toPos : Int) g 0 [] []
  have h1 : readLastLinesO (Except.ok ()) (fileReads file) g frm toPos n =
      ⟨Except.ok r, true⟩ := hr
  rw [h1]
  unfold readLastLines
  rw [h1]

theorem encodeLines_ne_nil (ms : List (List Nat)) (h : ms ≠ []) :
    encodeLines ms ≠ [] := by
  obtain ⟨m, tl, rfl⟩ := List.exists_cons_of_ne_nil h
  simp [encodeLines]

theorem processByte_res_zero (b : Nat) (cur : List Nat) :
    (processByte b 0 cur []).2.2 = [] := by
  unfold processByte
  split
  · rfl
  · rfl

theorem scanBytes_single_zero (n b : Nat) (cur : List Nat) :
    scanBytes n [b] 0 cur [] = [] := by
  rw [scanBytes_cons]
  by_cases hc : (processByte b 0 cur []).1 < n
  · rw [if_pos hc, scanBytes_nil, processByte_res_zero]
  · rw [if_neg hc, processByte_res_zero]

theorem readLastLines_zero_cap (g : Nat) (file : List Nat) (frm toPos : Nat) :
    readLastLines g file frm toPos 0 = [] := by
  have h := readLastLinesO_fileReads g file frm toPos 0
  have hlen := readLastLinesO_length_le (Except.ok ()) (fileReads file) g frm toPos 0
    (readLastLines g file frm toPos 0) (by rw [h])
  exact List.length_eq_zero.mp (by omega)

/-- Scan of a growth window whose lower bound sits just after a newline:
when the appended region is exactly the encoding of `ms`, every line of
`ms` is collected (with `ms` nonempty, newline-free lines, at most `n`
lines and `2 ≤ n`). -/
theorem growth_scan_lines (g : Nat) (pre0 : List Nat) (ms : List (List Nat))
    (n : Nat) (hms : ms ≠ []) (h10 : ∀ m ∈ ms, 10 ∉ m) (hk : ms.length ≤ n)
    (hn : 2 ≤ n) :
    readLastLines g (pre0 ++ [10] ++ encodeLines ms) (pre0.length + 1)
      (pre0 ++ [10] ++ encodeLines ms).length n = ms := by
  have hElen : 1 ≤ (encodeLines ms).length :=
    List.length_pos.mpr (encodeLines_ne_nil ms hms)
  have hlen : (pre0 ++ [10] ++ encodeLines ms).length =
      pre0.length + 1 + (encodeLines ms).length := by
    simp only [List.length_append, List.length_cons, List.length_nil]
  rw [readLastLines_pos g _ (pre0.length + 1) _ n (by omega) (by omega) (by omega)]
  have hd : (pre0 ++ [10] ++ encodeLines ms).drop (pre0.length + 1 - 1) =
      [10] ++ encodeLines ms := by
    rw [show pre0.length + 1 - 1 = pre0.length by omega, List.append_assoc,
      List.drop_left]
  rw [hd]
  have ht : ([10] ++ encodeLines ms).take
      ((pre0 ++ [10] ++ encodeLines ms).length - (pre0.length + 1) + 1) =
      [10] ++ encodeLines ms := by
    apply List.take_all_of_le
    rw [hlen]
    simp only [List.length_append, List.length_cons, List.length_nil]
    omega
  rw [ht, List.reverse_append, encodeLines_reverse,
    show ([10] : List Nat).reverse = [10] from rfl,
    scanBytes_growth n ms.reverse (by simpa using hms)
      (fun m hm => h10 m (List.mem_reverse.mp hm)) (by simpa using hk) hn,
    List.reverse_reverse]

/-- Scan of a growth window holding more than `n` appended lines: only the
`n` most recent lines are collected, whatever byte precedes the window
(with `2 ≤ n`); the older appended lines are passed over. -/
theorem overflow_scan_lines (g : Nat) (pre : List Nat) (ms : List (List Nat))
    (n : Nat) (h10 : ∀ m ∈ ms, 10 ∉ m) (hk : n < ms.length) (hn : 2 ≤ n) :
    readLastLines g (pre ++ encodeLines ms) pre.length
      (pre ++ encodeLines ms).length n = lastN n ms := by
  have hms : ms ≠ [] := by intro h; rw [h] at hk; simp at hk
  have hrev10 : ∀ m ∈ ms.reverse, 10 ∉ m :=
    fun m hm => h10 m (List.mem_reverse.mp hm)
  have hrevlen : n < ms.reverse.length := by simpa using hk
  cases hpre : pre with
  | nil =>
    subst hpre
    obtain ⟨b0, tl, hE⟩ := List.exists_cons_of_ne_nil (encodeLines_ne_nil ms hms)
    have hb0 : (([] : List Nat) ++ encodeLines ms).get? 0 = some b0 := by
      rw [List.nil_append, hE]
      rfl
    rw [show (([] : List Nat) ++ encodeLines ms).length = (encodeLines ms).length
        by simp,
      show ([] : List Nat).length = 0 from rfl,
      readLastLines_zero g _ (encodeLines ms).length n b0 hb0 (by simp),
      show ([] : List Nat) ++ encodeLines ms = encodeLines ms from rfl,
      List.take_length, encodeLines_reverse,
      scanBytes_overflow n ms.reverse b0 hrev10 hrevlen hn,
      List.reverse_reverse]
  | cons p0 ptl =>
    rw [← hpre]
    have hprene : pre ≠ [] := by rw [hpre]; exact List.cons_ne_nil p0 ptl
    have hprelen : 1 ≤ pre.length := List.length_pos.mpr hprene
    have hlen : (pre ++ encodeLines ms).length =
        pre.length + (encodeLines ms).length := by simp
    rw [readLastLines_pos g _ pre.length _ n (by omega)
      (by rw [hlen]; omega) (by omega)]
    have hd : (pre ++ encodeLines ms).drop (pre.length - 1) =
        pre.drop (pre.length - 1) ++ encodeLines ms := by
      rw [List.drop_append_eq_append_drop,
        show pre.length - 1 - pre.length = 0 by omega, List.drop_zero]
    obtain ⟨c, hc⟩ : ∃ c, pre.drop (pre.length - 1) = [c] := by
      apply List.length_eq_one.mp
      rw [List.length_drop]
      omega
    have ht : (pre.drop (pre.length - 1) ++ encodeLines ms).take
        ((pre ++ encodeLines ms).length - pre.length + 1) =
        pre.drop (pre.length - 1) ++ encodeLines ms := by
      apply List.take_all_of_le
      rw [List.length_append, List.length_drop, hlen]
      omega
    rw [hd, ht, hc, List.reverse_append, encodeLines_reverse,
      show ([c] : List Nat).reverse = [c] from rfl,
      scanBytes_overflow n ms.reverse c hrev10 hrevlen hn,
      List.reverse_reverse]

/-- Scan of a range whose content holds no newline: nothing is ever
promoted to a line, whatever sits on the byte one below the range. -/
theorem scan_no_newline (g : Nat) (file : List Nat) (frm toPos n : Nat)
    (h2 : frm ≤ toPos) (h3 : toPos ≤ file.length)
    (hnl : ∀ p, frm ≤ p → p < toPos → file.get? p ≠ some 10) :
    readLastLines g file frm toPos n = [] := by
  by_cases hn : n = 0
  · subst hn; exact readLastLines_zero_cap g file frm toPos
  have hn1 : 0 < n := by omega
  by_cases hfrm : frm = 0
  · subst hfrm
    by_cases hfe : file = []
    · subst hfe
      have htp : toPos = 0 := by simpa using h3
      subst htp
      have hout : readLastLinesO (Except.ok ()) (fileReads ([] : List Nat)) g 0 0 n =
          ⟨Except.ok [], true⟩ := by
        show readLoop (fileReads []) 0 n (0 - 0 + 1) ((0 : Nat) : Int) g 0 [] [] = _
        rw [readLoop_succ, fileReads_neg [] _ (by omega),
          show ([] : List Nat).get? 0 = none from rfl]
        dsimp only [Option.getD_none]
        rw [if_neg (by rintro ⟨h1, -⟩; omega), processByte_res_zero]
      unfold readLastLines
      rw [hout]
    · obtain ⟨b0, tl, hE⟩ := List.exists_cons_of_ne_nil hfe
      have hb0 : file.get? 0 = some b0 := by rw [hE]; rfl
      rw [readLastLines_zero g file toPos n b0 hb0 h3]
      have h10 : 10 ∉ (file.take toPos).reverse := by
        simp only [List.mem_reverse]
        intro hmem
        obtain ⟨i, hi⟩ := List.mem_iff_get?.mp hmem
        have hilt := (List.get?_eq_some.mp hi).1
        rw [List.length_take] at hilt
        have hitp : i < toPos := lt_of_lt_of_le hilt (min_le_left _ _)
        rw [List.get?_take hitp] at hi
        exact hnl i (by omega) hitp hi
      rw [scanBytes_accum n (file.take toPos).reverse [b0] 0 [] [] h10 hn1]
      exact scanBytes_single_zero n b0 _
  · have hfrm1 : 1 ≤ frm := by omega
    rw [readLastLines_pos g file frm toPos n hfrm1 h2 h3]
    have hlt : frm - 1 < file.length := by omega
    have hsl : (file.drop (frm - 1)).take (toPos - frm + 1) =
        file.get ⟨frm - 1, hlt⟩ :: ((file.drop frm).take (toPos - frm)) := by
      rw [List.drop_eq_get_cons hlt, show frm - 1 + 1 = frm by omega]
      rfl
    rw [hsl, List.reverse_cons]
    have h10r : 10 ∉ ((file.drop frm).take (toPos - frm)).reverse := by
      simp only [List.mem_reverse]
      intro hmem
      obtain ⟨i, hi⟩ := List.mem_iff_get?.mp hmem
      have hilt := (List.get?_eq_some.mp hi).1
      rw [List.length_take, List.length_drop] at hilt
      have hitp : i < toPos - frm := lt_of_lt_of_le hilt (min_le_left _ _)
      rw [List.get?_take hitp, List.get?_drop] at hi
      exact hnl (frm + i) (by omega) (by omega) hi
    rw [scanBytes_accum n _ [file.get ⟨frm - 1, hlt⟩] 0 [] [] h10r hn1]
    exact scanBytes_single_zero n _ _

/-- Appending newline-free bytes after the scanned content changes
nothing: the trailing partial line is accumulated and then discarded at
the first boundary, never emitted. -/
theorem scan_tail_invariant (g : Nat) (file P : List Nat) (frm n : Nat)
    (hfile : file ≠ []) (hfrm : frm ≤ file.length) (hP : 10 ∉ P) :
    readLastLines g (file ++ P) frm (file.length + P.length) n =
      readLastLines g file frm file.length n := by
  by_cases hn : n = 0
  · subst hn; rw [readLastLines_zero_cap, readLastLines_zero_cap]
  have hn1 : 0 < n := by omega
  have hPrev : 10 ∉ P.reverse := by simpa using hP
  by_cases hfrm0 : frm = 0
  · subst hfrm0
    obtain ⟨b0, tl, hE⟩ := List.exists_cons_of_ne_nil hfile
    have hb0 : file.get? 0 = some b0 := by rw [hE]; rfl
    have hb0app : (file ++ P).get? 0 = some b0 := by
      rw [List.get?_append (by rw [hE]; simp)]
      exact hb0
    rw [readLastLines_zero g (file ++ P) (file.length + P.length) n b0 hb0app
        (by simp),
      readLastLines_zero g file file.length n b0 hb0 (le_refl _),
      List.take_length,
      show (file ++ P).take (file.length + P.length) = file ++ P by
        apply List.take_all_of_le
        simp,
      List.reverse_append, List.append_assoc,
      scanBytes_accum n P.reverse _ 0 [] [] hPrev hn1]
    exact scanBytes_ctrZero_cur n _ _ _ _
  · have hfrm1 : 1 ≤ frm := by omega
    rw [readLastLines_pos g (file ++ P) frm (file.length + P.length) n hfrm1
        (by omega) (by simp),
      readLastLines_pos g file frm file.length n hfrm1 hfrm (le_refl _)]
    have hdL : (file ++ P).drop (frm - 1) = file.drop (frm - 1) ++ P := by
      rw [List.drop_append_eq_append_drop, show frm - 1 - file.length = 0 by omega,
        List.drop_zero]
    have htL : (file.drop (frm - 1) ++ P).take (file.length + P.length - frm + 1) =
        file.drop (frm - 1) ++ P := by
      apply List.take_all_of_le
      rw [List.length_append, List.length_drop]
      omega
    have htR : (file.drop (frm - 1)).take (file.length - frm + 1) =
        file.drop (frm - 1) := by
      apply List.take_all_of_le
      rw [List.length_drop]
      omega
    rw [hdL, htL, htR, List.reverse_append,
      scanBytes_accum n P.reverse _ 0 [] [] hPrev hn1]
    exact scanBytes_ctrZero_cur n _ _ _ _

/-- Dispatching a scan over a static file succeeds, advances `_size` to
the probed size and emits one line event per scanned line, in order. -/
theorem processFileChange_eq (fsc : String → List Nat) (st : TafState)
    (newSize : Nat) :
    processFileChange fsc st newSize =
      ({ st with size := newSize },
        (readLastLines 0 (fsc st.path) st.size newSize st.count).map Ev.line) := by
  unfold processFileChange processFileChangeO
  rw [readLastLinesO_fileReads]
  rfl

theorem notify_active_change (fsc : String → List Nat) (st : TafState)
    (statR : Except Err Nat) (hw : st.watcherActive = true) :
    notify fsc st (Notification.change statR) = onChange statR fsc st := by
  unfold notify
  rw [hw]
  rfl

theorem notify_active_rename (fsc : String → List Nat) (st : TafState)
    (fn : Option String) (hw : st.watcherActive = true) :
    notify fsc st (Notification.rename fn) = onRename fn st := by
  unfold notify
  rw [hw]
  rfl

theorem notify_inactive (fsc : String → List Nat) (st : TafState)
    (nt : Notification) (hw : st.watcherActive = false) :
    notify fsc st nt = (st, []) := by
  unfold notify
  rw [hw]
  rfl

/-- Read loops terminate in exactly one of two shapes: a successful result
with the descriptor closed, or an error with the descriptor left open. -/
theorem readLoop_shapes (reads : Int → Except Err (Option Nat)) (frm n : Nat) :
    ∀ (fuel : Nat) (pos : Int) (buf ctr : Nat) (cur : List Nat)
      (res : List (List Nat)),
    (∃ r, readLoop reads frm n fuel pos buf ctr cur res = ⟨Except.ok r, true⟩) ∨
    (∃ e, readLoop reads frm n fuel pos buf ctr cur res = ⟨Except.error e, false⟩) := by
  intro fuel
  induction fuel with
  | zero => intro pos buf ctr cur res; exact Or.inl ⟨res, rfl⟩
  | succ fuel ih =>
    intro pos buf ctr cur res
    rw [readLoop_succ]
    cases hcase : reads (pos - 1) with
    | error e => exact Or.inr ⟨e, rfl⟩
    | ok ob =>
      dsimp only
      by_cases hc : pos - 1 ≥ (frm : Int) ∧ (processByte (ob.getD buf) ctr cur res).1 < n
      · rw [if_pos hc]
        exact ih _ _ _ _ _
      · rw [if_neg hc]
        exact Or.inl ⟨_, rfl⟩

/-- Claim C1.  For a file that is exactly `k` newline-terminated lines,
construction with `lineCount = n <= k` is claimed to emit the last `n`
lines.  The code fails at `n = k`: on the file with bytes of the two
lines a and b (97 10 98 10), construction with `lineCount = 2` emits only
the line b — the first line of the file is never emitted because no
newline precedes it, a defect the source itself records in the todo
comment at src/index.js line 83 ("the first line does not cause a 'line'
event"), contradicting the advertised tail(1) behavior. -/
theorem claim_C1 :
    construct (Except.ok 4) (fun _ => [97, 10, 98, 10]) "t" 2 =
      (⟨"t", 2, 4, true⟩, [Ev.line [98]]) ∧
    [Ev.line [98]] ≠ [Ev.line [97], Ev.line [98]] := by
  constructor
  · rfl
  · decide

/-- Claim C4.  Content accumulated before the first newline boundary met
by the backward scan is never emitted: a range whose bytes hold no
newline yields the empty result (whatever the byte one position below the
range is), and appending a newline-free trailing partial after the
scanned content leaves the scan result unchanged — the partial is
dropped, never delivered. -/
theorem claim_C4 :
    (∀ (g : Nat) (file : List Nat) (frm toPos n : Nat), frm ≤ toPos →
      toPos ≤ file.length →
      (∀ p, frm ≤ p → p < toPos → file.get? p ≠ some 10) →
      readLastLines g file frm toPos n = []) ∧
    (∀ (g : Nat) (file P : List Nat) (frm n : Nat), file ≠ [] →
      frm ≤ file.length → 10 ∉ P →
      readLastLines g (file ++ P) frm (file.length + P.length) n =
        readLastLines g file frm file.length n) :=
  ⟨fun g file frm toPos n h2 h3 hnl => scan_no_newline g file frm toPos n h2 h3 hnl,
   fun g file P frm n hf hfrm hP => scan_tail_invariant g file P frm n hf hfrm hP⟩

/-- Witness for claim C4 at concrete inputs: a two-byte range with no
newline scans to nothing, and a trailing partial after a complete line
does not change the scan of that line's file. -/
theorem claim_C4_witness :
    readLastLines 0 [97, 98] 0 2 5 = [] ∧
    readLastLines 0 [97, 10, 98] 0 3 5 = readLastLines 0 [97, 10] 0 2 5 :=
  ⟨claim_C4.1 0 [97, 98] 0 2 5 (by decide) (by decide)
      (by decide),
   claim_C4.2 0 [97, 10] [98] 0 5 (by decide) (by decide) (by decide)⟩

/-- Claim C7 counterexample.  After `close()` (which only destroys the
watcher) the callback of a scan that was already in flight still runs
against the session: it advances `_size` and emits the scanned line —
the code discards nothing once the session is closed, so "no line event
is ever emitted after close()" is false at this input. -/
theorem claim_C7_cex :
    scanCallback (close ⟨"t", 2, 0, true⟩) 4 (Except.ok [[98]]) =
      (⟨"t", 2, 4, false⟩, [Ev.line [98]]) ∧
    ([Ev.line [98]] : List Ev) ≠ [] := by
  constructor
  · rfl
  · decide

/-- Claim C7, amended.  After `close()` no further notification dispatches
a scan or emits anything, because the closed watcher delivers no more
callbacks; but a scan in flight at the moment of `close()` is not
discarded: its callback still emits every scanned line (or the error) and
still advances `_size`. -/
theorem claim_C7 :
    (∀ (fsc : String → List Nat) (st : TafState) (nt : Notification),
      st.watcherActive = false → notify fsc st nt = (st, [])) ∧
    (∀ (st : TafState) (newSize : Nat) (lines : List (List Nat)),
      scanCallback (close st) newSize (Except.ok lines) =
        ({ close st with size := newSize }, lines.map Ev.line)) ∧
    (∀ (st : TafState) (newSize : Nat) (e : Err),
      scanCallback (close st) newSize (Except.error e) =
        (close st, [Ev.error e])) :=
  ⟨fun fsc st nt hw => notify_inactive fsc st nt hw,
   fun _ _ _ => rfl,
   fun _ _ _ => rfl⟩

/-- Witness for claim C7 at a concrete closed session: a change
notification on a closed watcher does nothing. -/
theorem claim_C7_witness :
    notify (fun _ => [97, 10]) ⟨"t", 2, 1, false⟩
        (Notification.change (Except.ok 2)) = (⟨"t", 2, 1, false⟩, []) :=
  claim_C7.1 (fun _ => [97, 10]) ⟨"t", 2, 1, false⟩
    (Notification.change (Except.ok 2)) rfl

/-- Claim C8 counterexample.  A scan whose open succeeds but whose very
first read fails invokes the callback with the error while the file
descriptor is left open: the source closes the descriptor only on the
natural exit of the loop, so "closed on every terminating path including
a read error" is false at this input. -/
theorem claim_C8_cex :
    (readLastLinesO (Except.ok ()) (fun _ => Except.error ⟨7⟩) 0 0 4 2).result =
      Except.error ⟨7⟩ ∧
    (readLastLinesO (Except.ok ()) (fun _ => Except.error ⟨7⟩) 0 0 4 2).closed =
      false := by
  constructor
  · rfl
  · rfl

/-- Claim C8, amended.  After a successful open, the descriptor is closed
on every natural termination of the loop (range exhausted or line cap
reached) — that is, whenever the callback receives a result; but when the
loop terminates because a read errored, the callback fires with the error
and the descriptor is never closed. -/
theorem claim_C8 :
    (∀ (reads : Int → Except Err (Option Nat)) (g frm toPos n : Nat)
      (r : List (List Nat)),
      (readLastLinesO (Except.ok ()) reads g frm toPos n).result = Except.ok r →
      (readLastLinesO (Except.ok ()) reads g frm toPos n).closed = true) ∧
    (∀ (reads : Int → Except Err (Option Nat)) (g frm toPos n : Nat) (e : Err),
      (readLastLinesO (Except.ok ()) reads g frm toPos n).result = Except.error e →
      (readLastLinesO (Except.ok ()) reads g frm toPos n).closed = false) := by
  constructor
  · intro reads g frm toPos n r h
    rcases readLoop_shapes reads frm n (toPos - frm + 1) (toPos : Int) g 0 [] []
      with ⟨r', hr⟩ | ⟨e', he⟩
    · show (readLoop reads frm n (toPos - frm + 1) (toPos : Int) g 0 [] []).closed = true
      rw [hr]
    · exfalso
      have : (readLastLinesO (Except.ok ()) reads g frm toPos n).result =
          Except.error e' := by
        show (readLoop reads frm n (toPos - frm + 1) (toPos : Int) g 0 [] []).result = _
        rw [he]
      rw [h] at this
      cases this
  · intro reads g frm toPos n e h
    rcases readLoop_shapes reads frm n (toPos - frm + 1) (toPos : Int) g 0 [] []
      with ⟨r', hr⟩ | ⟨e', he⟩
    · exfalso
      have : (readLastLinesO (Except.ok ()) reads g frm toPos n).result =
          Except.ok r' := by
        show (readLoop reads frm n (toPos - frm + 1) (toPos : Int) g 0 [] []).result = _
        rw [hr]
      rw [h] at this
      cases this
    · show (readLoop reads frm n (toPos - frm + 1) (toPos : Int) g 0 [] []).closed = false
      rw [he]

/-- Witness for claim C8 at a concrete static file: the successful scan
closes the descriptor. -/
theorem claim_C8_witness :
    (readLastLinesO (Except.ok ()) (fileReads [97, 10]) 0 0 2 5).closed = true :=
  claim_C8.1 (fileReads [97, 10]) 0 0 2 5 [] (by decide)

theorem onChange_ok (sz : Nat) (fsc : String → List Nat) (st : TafState) :
    onChange (Except.ok sz) fsc st =
      if st.size < sz then processFileChange fsc st sz else (st, []) := rfl

theorem onChange_error (e : Err) (fsc : String → List Nat) (st : TafState) :
    onChange (Except.error e) fsc st = (st, [Ev.error e]) := rfl

theorem notify_stat_error (fsc : String → List Nat) (st : TafState) (e : Err)
    (hw : st.watcherActive = true) :
    notify fsc st (Notification.change (Except.error e)) = (st, [Ev.error e]) := by
  rw [notify_active_change fsc st _ hw]
  rfl

/-- Claim C2 counterexample.  Incremental delivery fails on two explicit
inputs: with the already scanned content not newline-terminated (file x
then append of the line a, so bytes 120 97 10 scanned over offsets 1 to
3) the appended line is dropped because the scan runs into the old byte
120 before finding a second boundary; and with `lineCount = 1` (file x
newline, append of line a, scan over offsets 2 to 4) the very first
boundary already exhausts the counter, so nothing is emitted.  In both
runs the claim demands the line a. -/
theorem claim_C2_cex :
    notify (fun _ => [120, 97, 10]) ⟨"t", 10, 1, true⟩
        (Notification.change (Except.ok 3)) = (⟨"t", 10, 3, true⟩, []) ∧
    notify (fun _ => [120, 10, 97, 10]) ⟨"t", 1, 2, true⟩
        (Notification.change (Except.ok 4)) = (⟨"t", 1, 4, true⟩, []) ∧
    ([] : List Ev) ≠ [Ev.line [97]] := by
  refine ⟨rfl, rfl, by decide⟩

/-- Claim C2, amended.  Incremental correctness holds provided the byte
at offset `S1 - 1` is a newline (the already scanned content is
newline-terminated) and `2 ≤ lineCount`: appending exactly `k ≤ lineCount`
newline-terminated lines and signaling growth to the new end of file
emits exactly those lines, in order, and advances `_size` to the new
size. -/
theorem claim_C2 (fsc : String → List Nat) (st : TafState) (pre0 : List Nat)
    (ms : List (List Nat)) (hw : st.watcherActive = true)
    (hfile : fsc st.path = pre0 ++ [10] ++ encodeLines ms)
    (hS1 : st.size = pre0.length + 1) (hms : ms ≠ [])
    (h10 : ∀ m ∈ ms, 10 ∉ m) (hk : ms.length ≤ st.count) (hn : 2 ≤ st.count) :
    notify fsc st (Notification.change
        (Except.ok (pre0.length + 1 + (encodeLines ms).length))) =
      ({ st with size := pre0.length + 1 + (encodeLines ms).length },
        ms.map Ev.line) := by
  have hE : 1 ≤ (encodeLines ms).length :=
    List.length_pos.mpr (encodeLines_ne_nil ms hms)
  rw [notify_active_change fsc st _ hw, onChange_ok, if_pos (by omega),
    processFileChange_eq, hfile, hS1]
  have hlen : (pre0 ++ [10] ++ encodeLines ms).length =
      pre0.length + 1 + (encodeLines ms).length := by
    simp only [List.length_append, List.length_cons, List.length_nil]
  rw [← hlen, growth_scan_lines 0 pre0 ms st.count hms h10 hk hn]

/-- Witness for claim C2: scanned content x newline (offsets 0 and 1),
append of the single line a, `lineCount = 2`. -/
theorem claim_C2_witness :
    notify (fun _ => [120, 10, 97, 10]) ⟨"t", 2, 2, true⟩
        (Notification.change (Except.ok 4)) =
      (⟨"t", 2, 4, true⟩, [Ev.line [97]]) :=
  claim_C2 (fun _ => [120, 10, 97, 10]) ⟨"t", 2, 2, true⟩ [120] [[97]]
    rfl rfl rfl (by decide) (by decide) (by decide) (by decide)

/-- Claim C3 counterexample.  With `lineCount = 1` a growth step that
appends two newline-terminated lines (97 10 98 10 over a previously empty
file) emits nothing at all, not the most recent line: the first boundary
counts against the cap, so the claimed truncation to the most recent `n`
lines fails at `n = 1`. -/
theorem claim_C3_cex :
    notify (fun _ => [97, 10, 98, 10]) ⟨"t", 1, 0, true⟩
        (Notification.change (Except.ok 4)) = (⟨"t", 1, 4, true⟩, []) ∧
    ([] : List Ev) ≠ [Ev.line [98]] := by
  refine ⟨rfl, by decide⟩

/-- Claim C3, amended.  Every successful scan returns at most `maxLines`
lines, whatever the oracle outcomes; and for `2 ≤ lineCount`, a growth
step appending more than `lineCount` newline-terminated lines emits
exactly the most recent `lineCount` of them while `_size` advances to the
new end of file, so the skipped older lines are outside every later
scanned range (with `lineCount = 1` nothing is emitted at all). -/
theorem claim_C3 :
    (∀ (openR : Except Err Unit) (reads : Int → Except Err (Option Nat))
      (g frm toPos n : Nat) (r : List (List Nat)),
      (readLastLinesO openR reads g frm toPos n).result = Except.ok r →
      r.length ≤ n) ∧
    (∀ (fsc : String → List Nat) (st : TafState) (pre : List Nat)
      (ms : List (List Nat)), st.watcherActive = true →
      fsc st.path = pre ++ encodeLines ms → st.size = pre.length →
      (∀ m ∈ ms, 10 ∉ m) → st.count < ms.length → 2 ≤ st.count →
      notify fsc st (Notification.change
          (Except.ok (pre.length + (encodeLines ms).length))) =
        ({ st with size := pre.length + (encodeLines ms).length },
          (lastN st.count ms).map Ev.line)) := by
  constructor
  · exact fun openR reads g frm toPos n r h =>
      readLastLinesO_length_le openR reads g frm toPos n r h
  · intro fsc st pre ms hw hfile hS1 h10 hk hn
    have hms : ms ≠ [] := by
      intro h
      rw [h] at hk
      simp only [List.length_nil] at hk
      omega
    have hE : 1 ≤ (encodeLines ms).length :=
      List.length_pos.mpr (encodeLines_ne_nil ms hms)
    rw [notify_active_change fsc st _ hw, onChange_ok, if_pos (by omega),
      processFileChange_eq, hfile, hS1]
    have hlen : (pre ++ encodeLines ms).length =
        pre.length + (encodeLines ms).length := by
      simp only [List.length_append]
    rw [← hlen, overflow_scan_lines 0 pre ms st.count h10 hk hn]

/-- Witness for claim C3: three appended lines against `lineCount = 2`
emit exactly the last two. -/
theorem claim_C3_witness :
    notify (fun _ => [97, 10, 98, 10, 99, 10]) ⟨"t", 2, 0, true⟩
        (Notification.change (Except.ok 6)) =
      (⟨"t", 2, 6, true⟩, [Ev.line [98], Ev.line [99]]) :=
  claim_C3.2 (fun _ => [97, 10, 98, 10, 99, 10]) ⟨"t", 2, 0, true⟩ []
    [[97], [98], [99]] rfl rfl rfl (by decide) (by decide) (by decide)

/-- Claim C5.  The scanned-offset cursor never decreases: every
notification leaves it equal or larger, `close` leaves it untouched, a
probe at or below the cursor triggers no scan and no events, and a
successful growth scan sets it exactly to the probed size (a strict
increase, since the scan is only dispatched when the probe exceeds the
cursor). -/
theorem claim_C5 :
    (∀ (fsc : String → List Nat) (st : TafState) (nt : Notification),
      st.size ≤ (notify fsc st nt).1.size) ∧
    (∀ st : TafState, (close st).size = st.size) ∧
    (∀ (fsc : String → List Nat) (st : TafState) (s : Nat), s ≤ st.size →
      notify fsc st (Notification.change (Except.ok s)) = (st, [])) ∧
    (∀ (fsc : String → List Nat) (st : TafState) (s : Nat),
      st.watcherActive = true → st.size < s →
      (notify fsc st (Notification.change (Except.ok s))).1.size = s) := by
  refine ⟨?_, fun st => rfl, ?_, ?_⟩
  · intro fsc st nt
    cases hw : st.watcherActive with
    | false =>
      rw [notify_inactive fsc st nt hw]
    | true =>
      cases nt with
      | change statR =>
        rw [notify_active_change fsc st statR hw]
        cases statR with
        | error e => rw [onChange_error]
        | ok s =>
          rw [onChange_ok]
          by_cases hs : st.size < s
          · rw [if_pos hs, processFileChange_eq]
            exact le_of_lt hs
          · rw [if_neg hs]
      | rename fn =>
        rw [notify_active_rename fsc st fn hw]
        cases fn with
        | some f => exact le_refl _
        | none => exact le_refl _
  · intro fsc st s hs
    cases hw : st.watcherActive with
    | false => exact notify_inactive fsc st _ hw
    | true =>
      rw [notify_active_change fsc st _ hw, onChange_ok, if_neg (by omega)]
  · intro fsc st s hw hs
    rw [notify_active_change fsc st _ hw, onChange_ok, if_pos hs,
      processFileChange_eq]

/-- Witness for claim C5: a probe of 3 against a cursor at 5 does
nothing. -/
theorem claim_C5_witness :
    notify (fun _ => []) ⟨"t", 10, 5, true⟩
        (Notification.change (Except.ok 3)) = (⟨"t", 10, 5, true⟩, []) :=
  claim_C5.2.2.1 (fun _ => []) ⟨"t", 10, 5, true⟩ 3 (by decide)

/-- Claim C6.  Every stat, open or read failure during a growth-triggered
scan produces exactly one error event, no line events, and leaves `_size`
untouched; and because the state is untouched, a later successful growth
notification is processed exactly as it would have been before the
failure, against the old cursor. -/
theorem claim_C6 :
    (∀ (fsc : String → List Nat) (st : TafState) (e : Err),
      st.watcherActive = true →
      notify fsc st (Notification.change (Except.error e)) =
        (st, [Ev.error e])) ∧
    (∀ (reads : Int → Except Err (Option Nat)) (g : Nat) (st : TafState)
      (s : Nat) (e : Err),
      processFileChangeO (Except.error e) reads g st s = (st, [Ev.error e])) ∧
    (∀ (reads : Int → Except Err (Option Nat)) (g : Nat) (st : TafState)
      (s : Nat) (e : Err), reads ((s : Int) - 1) = Except.error e →
      processFileChangeO (Except.ok ()) reads g st s = (st, [Ev.error e])) ∧
    (∀ (openR : Except Err Unit) (reads : Int → Except Err (Option Nat))
      (g : Nat) (st : TafState) (s : Nat) (e : Err),
      (readLastLinesO openR reads g st.size s st.count).result =
        Except.error e →
      processFileChangeO openR reads g st s = (st, [Ev.error e])) ∧
    (∀ (fsc : String → List Nat) (st : TafState) (e : Err) (s : Nat),
      st.watcherActive = true →
      notify fsc (notify fsc st (Notification.change (Except.error e))).1
        (Notification.change (Except.ok s)) =
        notify fsc st (Notification.change (Except.ok s))) := by
  refine ⟨?_, ?_, ?_, ?_, ?_⟩
  · exact fun fsc st e hw => notify_stat_error fsc st e hw
  · intro reads g st s e
    rfl
  · intro reads g st s e h
    have hscan : readLastLinesO (Except.ok ()) reads g st.size s st.count =
        ⟨Except.error e, false⟩ := by
      show readLoop reads st.size st.count (s - st.size + 1) ((s : Nat) : Int)
        g 0 [] [] = _
      rw [readLoop_succ, h]
    unfold processFileChangeO
    rw [hscan]
    rfl
  · intro openR reads g st s e h
    unfold processFileChangeO
    rw [h]
    rfl
  · intro fsc st e s hw
    rw [notify_stat_error fsc st e hw]

/-- Witness for claim C6: a failing stat probe emits one error event and
leaves the session untouched. -/
theorem claim_C6_witness :
    notify (fun _ => []) ⟨"t", 10, 5, true⟩
        (Notification.change (Except.error ⟨3⟩)) =
      (⟨"t", 10, 5, true⟩, [Ev.error ⟨3⟩]) :=
  claim_C6.1 (fun _ => []) ⟨"t", 10, 5, true⟩ ⟨3⟩ rfl

/-- Claim C9.  A rename notification carrying a filename repoints the
monitored path to that name resolved in the directory of the old path;
no event is emitted, and the record update touches neither `_size`,
`count` nor the watcher subscription.  A subsequent growth notification
is then served by scanning the file found at the new path. -/
theorem claim_C9 (fsc : String → List Nat) (st : TafState) (f : String)
    (hw : st.watcherActive = true) :
    notify fsc st (Notification.rename (some f)) =
      ({ st with path := resolve (dirname st.path) f }, []) ∧
    (∀ s : Nat, st.size < s →
      notify fsc { st with path := resolve (dirname st.path) f }
          (Notification.change (Except.ok s)) =
        ({ st with path := resolve (dirname st.path) f, size := s },
          (readLastLines 0 (fsc (resolve (dirname st.path) f)) st.size s
            st.count).map Ev.line)) := by
  constructor
  · rw [notify_active_rename fsc st _ hw]
    rfl
  · intro s hs
    have hw2 : ({ st with path := resolve (dirname st.path) f } :
        TafState).watcherActive = true := hw
    rw [notify_active_change fsc _ _ hw2, onChange_ok, if_pos hs,
      processFileChange_eq]

/-- Witness for claim C9: renaming b.log to c.log inside /a repoints the
session to /a/c.log with nothing emitted and the cursor intact. -/
theorem claim_C9_witness :
    notify (fun _ => []) ⟨"/a/b.log", 2, 1, true⟩
        (Notification.rename (some "c.log")) = (⟨"/a/c.log", 2, 1, true⟩, []) := by
  rw [(claim_C9 (fun _ => []) ⟨"/a/b.log", 2, 1, true⟩ "c.log" rfl).1]
  rfl

/-- Claim C10.  The loop always reads the byte one below the requested
range: with the range 1 to 3 of a three-byte file, an oracle failing only
at position 0 aborts the scan, and the scan result depends on that
out-of-range byte — the line starting exactly at offset 1 is delivered
precisely when byte 0 is a newline, so two files agreeing on the range
but differing at byte 0 scan differently. -/
theorem claim_C10 (b : Nat) (hb : b ≠ 10) :
    (readLastLinesO (Except.ok ())
        (fun p => if p = 0 then Except.error ⟨7⟩ else fileReads [b, 97, 10] p)
        0 1 3 10).result = Except.error ⟨7⟩ ∧
    readLastLines 0 [b, 97, 10] 1 3 10 = [] ∧
    readLastLines 0 [10, 97, 10] 1 3 10 = [[97]] := by
  refine ⟨rfl, ?_, by decide⟩
  rw [readLastLines_pos 0 [b, 97, 10] 1 3 10 (by omega) (by omega)
      (by simp)]
  rw [show ((([b, 97, 10] : List Nat).drop (1 - 1)).take (3 - 1 + 1)).reverse =
      [10, 97, b] from rfl]
  rw [scanBytes_cons, processByte_nl_zero]
  rw [if_pos (by norm_num), scanBytes_cons,
    processByte_other 97 1 [] [] (by omega)]
  rw [if_pos (by norm_num), scanBytes_cons,
    processByte_other b 1 [97] [] hb]
  rw [if_pos (by norm_num), scanBytes_nil]

/-- Witness for claim C10 at byte 120 below the range. -/
theorem claim_C10_witness :
    (readLastLinesO (Except.ok ())
        (fun p => if p = 0 then Except.error ⟨7⟩ else fileReads [120, 97, 10] p)
        0 1 3 10).result = Except.error ⟨7⟩ ∧
    readLastLines 0 [120, 97, 10] 1 3 10 = [] ∧
    readLastLines 0 [10, 97, 10] 1 3 10 = [[97]] :=
  claim_C10 120 (by decide)


end Taf
